import Mathlib

/-!
Verification of the directory-indexer core (`src/directory_indexer.py`).

This file shallowly embeds the SCAN-AND-NUMBER pipeline of the repository:

* `HybridPipeline._scan_recursive` (lines 58-92): enumerate a directory,
  drop hidden entries, sort with key `(not is_dir, name.lower())`, assign
  dotted position numbers and relative paths, and recurse into readable
  subdirectories; a `PermissionError`/`OSError` while listing a directory
  yields an empty child list (lines 62-69).
* the three serializers `generate_txt` (lines 97-116), `generate_json`
  (lines 119-121) and `generate_xml` (lines 124-149), and
* the CLI driver `main` (lines 245-397), as far as the claims need it.

The filesystem is modelled by the inductive type `FS`; directory entries
carry a `readable` flag modelling whether `os.scandir` succeeds on them.
Machine-level concerns (inode identity, symlinks, concurrency,
timestamps) are outside the model; `datetime.now()` output is passed to
the serializers as an explicit `ts : String` parameter.

Python's `sorted` is a stable sort; it is embedded as a stable insertion
sort (`sortEntries`) over the comparator key of line 66.  Python's
`str.lower()` and string comparison (code-point lexicographic) are
modelled over ASCII code points (`lowerNat`, `natListLt`).
-/

/-- A filesystem tree entry as observed by `os.scandir`: a file, or a
directory with a name, a flag saying whether listing it succeeds
(`os.scandir` raising `PermissionError`/`OSError` corresponds to
`readable = false`), and its children. -/
inductive FS where
  | file (name : String)
  | dir (name : String) (readable : Bool) (children : List FS)
deriving Repr

mutual

/-- Number of entries in one filesystem subtree (the entry itself plus
all of its descendants); used as recursion fuel for the scan. -/
def sizeFS : FS → Nat
  | .file _ => 1
  | .dir _ _ kids => 1 + sizeL kids

/-- Total number of entries in the subtrees of a list of entries. -/
def sizeL : List FS → Nat
  | [] => 0
  | e :: r => sizeFS e + sizeL r

end

/-- The raw filesystem name of an entry (`entry.name`). -/
def FS.name : FS → String
  | .file n => n
  | .dir n _ _ => n

/-- Whether the entry is a directory (`entry.is_dir()`). -/
def FS.isDir : FS → Bool
  | .file _ => false
  | .dir _ _ _ => true

/-- `name.startswith('.')` (line 65). -/
def startsDot (s : String) : Bool :=
  match s.data with
  | [] => false
  | c :: _ => c = '.'

/-- ASCII lowercasing of one code point, modelling `str.lower()` on the
characters the claims exercise. -/
def lowerNat (n : Nat) : Nat :=
  if 65 ≤ n ∧ n ≤ 90 then n + 32 else n

/-- The code points of `name.lower()`, the second component of the sort
key of line 66. -/
def lowerKey (s : String) : List Nat :=
  s.data.map (fun c => lowerNat c.toNat)

/-- Strict lexicographic order on code-point sequences, modelling
Python's `<` on strings. -/
def natListLt : List Nat → List Nat → Bool
  | [], [] => false
  | [], _ :: _ => true
  | _ :: _, [] => false
  | a :: as, b :: bs => decide (a < b) || (a == b && natListLt as bs)

/-- `natListLe a b` means `a` is not after `b`: the reflexive closure of
`natListLt`. -/
def natListLe (a b : List Nat) : Bool :=
  !natListLt b a

/-- The comparator key of line 66: `(not e.is_dir(), e.name.lower())`. -/
def entryKey (e : FS) : Bool × List Nat :=
  (!e.isDir, lowerKey e.name)

/-- Strict lexicographic order on comparator keys (Python tuple `<` with
`False < True` on the first component). -/
def keyLt : Bool × List Nat → Bool × List Nat → Bool
  | (a1, a2), (b1, b2) => (!a1 && b1) || (a1 == b1 && natListLt a2 b2)

/-- Insert an entry into an already sorted list, after every element
whose key is strictly smaller and before every element whose key is
greater *or equal* — the placement a stable sort gives an element that
precedes the list's elements in the input. -/
def insEntry (e : FS) : List FS → List FS
  | [] => [e]
  | x :: xs => if keyLt (entryKey x) (entryKey e) then x :: insEntry e xs else e :: x :: xs

/-- Stable sort by the comparator key, modelling
`sorted(..., key=lambda e: (not e.is_dir(), e.name.lower()))`
of lines 64-67. -/
def sortEntries : List FS → List FS
  | [] => []
  | e :: rest => insEntry e (sortEntries rest)

/-- The hidden-entry filter of line 65:
`[e for e in entries if not e.name.startswith('.')]`. -/
def filterHidden (l : List FS) : List FS :=
  l.filter (fun e => !startsDot e.name)

/-- Decimal digit character. -/
def digitCh : Nat → Char
  | 0 => '0' | 1 => '1' | 2 => '2' | 3 => '3' | 4 => '4'
  | 5 => '5' | 6 => '6' | 7 => '7' | 8 => '8' | _ => '9'

/-- Decimal digits of `n`, most significant first; the first argument is
recursion fuel (any value `> log10 n` gives the digits of `n`). -/
def natToStrAux : Nat → Nat → List Char
  | 0, _ => []
  | fuel+1, n => if n < 10 then [digitCh n] else natToStrAux fuel (n / 10) ++ [digitCh (n % 10)]

/-- Decimal rendering of a natural number, modelling Python `str(i)`. -/
def natToStr (n : Nat) : String :=
  ⟨natToStrAux (n + 1) n⟩

/-- Line 75: `f"{parent_number}.{idx}" if parent_number else str(idx)`
(a Python string is truthy iff non-empty). -/
def mkNumber (pn : String) (idx : Nat) : String :=
  if pn = "" then natToStr idx else pn ++ "." ++ natToStr idx

/-- Line 76: `f"{rel_path}/{entry.name}" if rel_path else entry.name`. -/
def mkPath (rp : String) (nm : String) : String :=
  if rp = "" then nm else rp ++ "/" ++ nm

/-- One node of the built hierarchy: the dict of lines 79-85 with keys
`number`, `name`, `type` (`"directory"` or `"file"`), `path` and
`children`. -/
inductive Item where
  | mk (number : String) (name : String) (type : String) (path : String) (children : List Item)
deriving Repr

/-- The `number` field of a node. -/
def Item.number : Item → String
  | .mk n _ _ _ _ => n

/-- The `name` field of a node. -/
def Item.name : Item → String
  | .mk _ nm _ _ _ => nm

/-- The `type` field of a node (`"directory"` or `"file"`). -/
def Item.type : Item → String
  | .mk _ _ t _ _ => t

/-- The `path` field of a node (root-relative, `/`-separated). -/
def Item.path : Item → String
  | .mk _ _ _ p _ => p

/-- The `children` field of a node. -/
def Item.children : Item → List Item
  | .mk _ _ _ _ c => c

/-- The numbering loop of `_scan_recursive` (lines 71-92) over an
already filtered and sorted entry list: the i-th entry (1-based, `idx`
counts on from the starting rank) becomes a node whose number extends
`pn`, whose path extends `rp`, and whose children are the recursive scan
of the entry's own listing when it is a readable directory — an
unreadable directory's listing raises and is caught at lines 68-69,
yielding `[]`.  The `fuel` argument is recursion fuel; any value
exceeding the total entry count (`sizeL`) is enough. -/
def scanLoop : Nat → List FS → String → String → Nat → List Item
  | 0, _, _, _, _ => []
  | _+1, [], _, _, _ => []
  | fuel+1, e :: rest, rp, pn, idx =>
    let number := mkNumber pn idx
    let path := mkPath rp e.name
    let children :=
      match e with
      | .file _ => []
      | .dir _ false _ => []
      | .dir _ true kids => scanLoop fuel (sortEntries (filterHidden kids)) path number 1
    .mk number e.name (if e.isDir then "directory" else "file") path children
      :: scanLoop fuel rest rp pn (idx + 1)

/-- `HybridPipeline._scan_recursive(dir_path, rel_path, parent_number)`
(lines 58-92) applied to the entries `es` of the directory at
`dir_path`: filter hidden entries, sort, then number and recurse.
`scan_and_build` (line 51) is this function with `rp = ""` and
`pn = ""`. -/
def scanEntries (es : List FS) (rp pn : String) : List Item :=
  scanLoop (sizeL es + 1) (sortEntries (filterHidden es)) rp pn 1

mutual

/-- All nodes of one subtree, the node itself first (pre-order). -/
def allItems1 : Item → List Item
  | .mk n nm t p cs => .mk n nm t p cs :: allItemsL cs

/-- All nodes of a hierarchy in pre-order: each node immediately
followed by all of its descendants, before its next sibling. -/
def allItemsL : List Item → List Item
  | [] => []
  | i :: is => allItems1 i ++ allItemsL is

end

mutual

/-- Pre-order traversal of one subtree paired with depth (`d` for the
node itself, `d + 1` for its children). -/
def allItemsDepth1 : Item → Nat → List (Item × Nat)
  | .mk n nm t p cs, d => (.mk n nm t p cs, d) :: allItemsDepthL cs (d + 1)

/-- Pre-order traversal of a hierarchy paired with depth. -/
def allItemsDepthL : List Item → Nat → List (Item × Nat)
  | [], _ => []
  | i :: is, d => allItemsDepth1 i d ++ allItemsDepthL is d

end

mutual

/-- `true` iff every entry name in the subtree is a legal filesystem
name for the claims that need it: non-empty and without `'/'` (real
`os.scandir` names always satisfy both). -/
def namesOkFS : FS → Bool
  | .file n => decide (n ≠ "") && decide ('/' ∉ n.data)
  | .dir n _ kids => (decide (n ≠ "") && decide ('/' ∉ n.data)) && namesOkL kids

/-- `namesOkFS` over a list of entries. -/
def namesOkL : List FS → Bool
  | [] => true
  | e :: r => namesOkFS e && namesOkL r

end

/-- Number of occurrences of the character `c` in `s`. -/
def countCh (c : Char) (s : String) : Nat :=
  s.data.count c

/-- The `data` dict handed to the serializers by
`DirectoryIndexer.generate_output` (lines 200-203):
`{"root": display_name, "hierarchy": hierarchy}`. -/
structure Data where
  root : String
  hierarchy : List Item

/-- `"  " * depth`: the indentation of line 108. -/
def indentStr (depth : Nat) : String :=
  ⟨List.replicate (2 * depth) ' '⟩

/-- `"=" * 60`: the separator of line 102. -/
def sepLine : String :=
  ⟨List.replicate 60 '='⟩

/-- The type marker of line 109: `"[D]"` for directories, `"[F]"` for
files. -/
def markerOf (t : String) : String :=
  if t = "directory" then "[D]" else "[F]"

/-- The node line of line 110:
`f"{indent}{item['number']}. {type_marker} {item['name']}"` for a node
at a given depth. -/
def lineOf : Item × Nat → String
  | (it, depth) => indentStr depth ++ it.number ++ ". " ++ markerOf it.type ++ " " ++ it.name

mutual

/-- One iteration of `format_items` (lines 107-113): the node's line,
then — only when the `children` list is truthy, i.e. non-empty — the
lines of the children one level deeper. -/
def txtItem : Item → Nat → List String
  | .mk n nm t _ cs, depth =>
    (indentStr depth ++ n ++ ". " ++ markerOf t ++ " " ++ nm)
      :: (if cs.isEmpty then [] else txtBody cs (depth + 1))

/-- `format_items(items, depth)` (lines 106-113) as the list of lines it
appends. -/
def txtBody : List Item → Nat → List String
  | [], _ => []
  | i :: is, depth => txtItem i depth ++ txtBody is depth

end

/-- The `lines` list built by `generate_txt` (lines 97-116): the
four-element header of lines 99-104 followed by the `format_items`
lines; `ts` stands for `datetime.now().strftime(...)`. -/
def txtLines (d : Data) (ts : String) : List String :=
  ["Directory Index: " ++ d.root, "Generated: " ++ ts, sepLine, ""]
    ++ txtBody d.hierarchy 0

/-- `generate_txt` (line 116 joins the lines with newlines). -/
def generate_txt (d : Data) (ts : String) : String :=
  String.intercalate "\n" (txtLines d ts)

/-- JSON values, as far as the serializer's output needs them: the
output of `generate_json` only contains strings, arrays and objects. -/
inductive Json where
  | str (s : String)
  | arr (elements : List Json)
  | obj (fields : List (String × Json))
deriving Repr

mutual

/-- The JSON value of one node dict (lines 79-85); `json.dumps` (line
121) serializes dict keys in insertion order:
`number`, `name`, `type`, `path`, `children`. -/
def jsonOfItem : Item → Json
  | .mk n nm t p cs =>
    .obj [("number", .str n), ("name", .str nm), ("type", .str t), ("path", .str p),
          ("children", .arr (jsonOfItems cs))]

/-- The JSON array of a list of nodes. -/
def jsonOfItems : List Item → List Json
  | [] => []
  | i :: is => jsonOfItem i :: jsonOfItems is

end

/-- The JSON value `generate_json` (lines 119-121) serializes: the
`data` dict `{"root": ..., "hierarchy": [...]}`.  `json.dumps` with
`ensure_ascii=False` prints exactly this value and `json.loads` parses
the printed text back to it, so the value is the serializer's output up
to JSON concrete syntax. -/
def jsonOfData (d : Data) : Json :=
  .obj [("root", .str d.root), ("hierarchy", .arr (jsonOfItems d.hierarchy))]

mutual

/-- Parse one node back from its JSON value: the exact object shape
`json.dumps` emits for a node dict; anything else is rejected. -/
def parseItem : Json → Option Item
  | .obj [("number", .str n), ("name", .str nm), ("type", .str t), ("path", .str p),
          ("children", .arr cs)] =>
    match parseItems cs with
    | some is => some (.mk n nm t p is)
    | none => none
  | _ => none

/-- Parse a JSON array of nodes back. -/
def parseItems : List Json → Option (List Item)
  | [] => some []
  | j :: js =>
    match parseItem j, parseItems js with
    | some i, some is => some (i :: is)
    | _, _ => none

end

/-- Parse a whole serialized document back from its JSON value. -/
def parseData : Json → Option Data
  | .obj [("root", .str r), ("hierarchy", .arr hs)] =>
    match parseItems hs with
    | some is => some ⟨r, is⟩
    | none => none
  | _ => none

/-- The `(number, name, kind, relativePath)` tuples of all nodes of a
hierarchy, in pre-order. -/
def tuplesOf (l : List Item) : List (String × String × String × String) :=
  (allItemsL l).map (fun it => (it.number, it.name, it.type, it.path))

/-- `xml.dom.minidom._write_data`, the escaping `toprettyxml` (line 148)
applies to every piece of character data it writes — both element text
and attribute values:
`data.replace("&", "&amp;").replace("<", "&lt;").replace("\"", "&quot;").replace(">", "&gt;")`,
written character by character (the replacements introduce no character
that a later replace would rewrite, so the sequential global replaces
equal this single pass). -/
def writeData : List Char → List Char
  | [] => []
  | c :: rest =>
    (if c = '&' then ['&', 'a', 'm', 'p', ';']
     else if c = '<' then ['&', 'l', 't', ';']
     else if c = '"' then ['&', 'q', 'u', 'o', 't', ';']
     else if c = '>' then ['&', 'g', 't', ';']
     else [c]) ++ writeData rest

/-- Worker for `unescapeXml`; the first argument is recursion fuel (the
input's length is always enough, since every step consumes at least one
character). -/
def unescapeAux : Nat → List Char → List Char
  | 0, l => l
  | _+1, [] => []
  | fuel+1, c :: rest =>
    if c = '&' then
      match rest with
      | 'a' :: 'm' :: 'p' :: ';' :: r2 => '&' :: unescapeAux fuel r2
      | 'l' :: 't' :: ';' :: r2 => '<' :: unescapeAux fuel r2
      | 'q' :: 'u' :: 'o' :: 't' :: ';' :: r2 => '"' :: unescapeAux fuel r2
      | 'g' :: 't' :: ';' :: r2 => '>' :: unescapeAux fuel r2
      | _ => c :: unescapeAux fuel rest
    else c :: unescapeAux fuel rest

/-- XML entity decoding for the four entities `writeData` emits; every
other character is copied verbatim.  Applying it to serializer output
recovers the original character data. -/
def unescapeXml (l : List Char) : List Char :=
  unescapeAux l.length l

/-- Worker for `ampsOk`, with the same fuel convention as
`unescapeAux`. -/
def ampsOkAux : Nat → List Char → Bool
  | 0, _ => true
  | _+1, [] => true
  | fuel+1, c :: rest =>
    if c = '&' then
      match rest with
      | 'a' :: 'm' :: 'p' :: ';' :: r2 => ampsOkAux fuel r2
      | 'l' :: 't' :: ';' :: r2 => ampsOkAux fuel r2
      | 'q' :: 'u' :: 'o' :: 't' :: ';' :: r2 => ampsOkAux fuel r2
      | 'g' :: 't' :: ';' :: r2 => ampsOkAux fuel r2
      | _ => false
    else ampsOkAux fuel rest

/-- `true` iff every `'&'` in the character data begins one of the four
entities `&amp;`, `&lt;`, `&quot;`, `&gt;` — i.e. no ampersand is left
raw. -/
def ampsOk (l : List Char) : Bool :=
  ampsOkAux l.length l

/-- An XML DOM node: element with tag, attributes (in insertion order)
and children, or a text node. -/
inductive XNode where
  | elem (tag : String) (attrs : List (String × String)) (children : List XNode)
  | text (s : String)
deriving Repr

mutual

/-- The element `add_items` (lines 130-144) builds for one node: an
`item` element with `number` and `type` attributes, a `name` and a
`path` text child, and a `children` wrapper element only when the
`children` list is non-empty (line 142). -/
def xmlOfItem : Item → XNode
  | .mk n nm t p cs =>
    .elem "item" [("number", n), ("type", t)]
      ([.elem "name" [] [.text nm], .elem "path" [] [.text p]]
        ++ (if cs.isEmpty then [] else [.elem "children" [] (xmlOfItems cs)]))

/-- `add_items` over a list of nodes. -/
def xmlOfItems : List Item → List XNode
  | [] => []
  | i :: is => xmlOfItem i :: xmlOfItems is

end

/-- The DOM document `generate_xml` (lines 124-149) builds: the
`directory_index` root element with `root_path` and `generated`
attributes and one `item` child per top-level node.  `ET.tostring`
escapes `&`, `<`, `>`; `minidom.parseString` decodes again; the tree
below is the parsed DOM that `toprettyxml` then prints. -/
def xmlOfData (d : Data) (ts : String) : XNode :=
  .elem "directory_index" [("root_path", d.root), ("generated", ts)] (xmlOfItems d.hierarchy)

/-- Attribute rendering of `minidom.Element.writexml`:
`' name="value"'` with the value escaped by `_write_data`. -/
def attrsStr : List (String × String) → String
  | [] => ""
  | (k, v) :: rest => " " ++ k ++ "=" ++ "\"" ++ ⟨writeData v.data⟩ ++ "\"" ++ attrsStr rest

mutual

/-- `minidom` pretty printing (`toprettyxml(indent="  ")`, line 148) of
one DOM node as output lines: a childless element prints self-closed, an
element whose only child is a text node prints on one line with the text
escaped by `_write_data`, and any other element prints its children
indented two further spaces between open and close tags. -/
def xmlLines1 : XNode → String → List String
  | .text s, ind => [ind ++ ⟨writeData s.data⟩]
  | .elem tag attrs [], ind => [ind ++ "<" ++ tag ++ attrsStr attrs ++ "/>"]
  | .elem tag attrs [.text s], ind =>
    [ind ++ "<" ++ tag ++ attrsStr attrs ++ ">" ++ ⟨writeData s.data⟩ ++ "</" ++ tag ++ ">"]
  | .elem tag attrs cs, ind =>
    (ind ++ "<" ++ tag ++ attrsStr attrs ++ ">")
      :: (xmlLinesL cs (ind ++ "  ") ++ [ind ++ "</" ++ tag ++ ">"])

/-- `minidom` pretty printing of a list of sibling DOM nodes. -/
def xmlLinesL : List XNode → String → List String
  | [], _ => []
  | c :: cs, ind => xmlLines1 c ind ++ xmlLinesL cs ind

end

/-- `generate_xml` (lines 124-149) as output lines: the XML declaration
`toprettyxml` emits, then the pretty-printed document. -/
def generate_xml (d : Data) (ts : String) : List String :=
  "<?xml version=\"1.0\" ?>" :: xmlLines1 (xmlOfData d ts) ""

/-- The text content of the text-node children of a DOM node list. -/
def textsOfL : List XNode → List String
  | [] => []
  | .text s :: r => s :: textsOfL r
  | .elem _ _ _ :: r => textsOfL r

mutual

/-- All node names embedded in a DOM tree: the text content of every
element tagged `name`. -/
def xmlNames1 : XNode → List String
  | .text _ => []
  | .elem tag _ cs => (if tag = "name" then textsOfL cs else []) ++ xmlNamesL cs

/-- `xmlNames1` over a list of DOM nodes. -/
def xmlNamesL : List XNode → List String
  | [] => []
  | c :: cs => xmlNames1 c ++ xmlNamesL cs

end

/-- The string value of a JSON value when it is a string. -/
def strVals : Json → List String
  | .str s => [s]
  | _ => []

mutual

/-- All node names embedded in a JSON value: the string values of every
`"name"` field. -/
def jsonNames1 : Json → List String
  | .str _ => []
  | .arr l => jsonNamesL l
  | .obj fs => jsonNamesF fs

/-- `jsonNames1` over a JSON array. -/
def jsonNamesL : List Json → List String
  | [] => []
  | j :: js => jsonNames1 j ++ jsonNamesL js

/-- `jsonNames1` over object fields. -/
def jsonNamesF : List (String × Json) → List String
  | [] => []
  | (k, v) :: fs => (if k = "name" then strVals v else []) ++ jsonNames1 v ++ jsonNamesF fs

end

/-- The warnings `_scan_recursive` records while scanning a filtered and
sorted entry list: the `except (PermissionError, OSError)` handler at
lines 68-69 executes `return items` only — no code path logs, prints or
records anything when a nested directory is unreadable, so a readable
directory contributes the warnings of its subtree and an unreadable one
contributes nothing. -/
def warnLoop : Nat → List FS → List String
  | 0, _ => []
  | _+1, [] => []
  | fuel+1, e :: rest =>
    (match e with
     | .dir _ true kids => warnLoop fuel (sortEntries (filterHidden kids))
     | _ => [])
      ++ warnLoop fuel rest

/-- All warnings recorded while scanning the entries of a root
directory. -/
def scanWarnings (es : List FS) : List String :=
  warnLoop (sizeL es + 1) (sortEntries (filterHidden es))

/-- The status of the root path handed to `main` (lines 320-327): it
does not exist, it exists but is a file, or it is a directory with the
given entries. -/
inductive ScanRoot where
  | missing
  | fileAt (name : String)
  | dirAt (children : List FS)

/-- The fatal errors of `main`: `Directory not found` (lines 321-323)
and `Not a directory` (lines 325-327). -/
inductive MainErr where
  | notFound
  | notADirectory
deriving Repr, DecidableEq

/-- An output format selected by the CLI flags. -/
inductive OutFmt where
  | txtFmt
  | jsonFmt
  | xmlFmt
deriving Repr, DecidableEq

/-- The content written for one output file, in the format's own
model. -/
inductive FileContent where
  | txtC (s : String)
  | jsonC (j : Json)
  | xmlC (lines : List String)

/-- The default output file name for a format
(`DirectoryIndexer.generate_output`, lines 206-214). -/
def fileNameOf : OutFmt → String
  | .txtFmt => "directory_index.txt"
  | .jsonFmt => "directory_index.json"
  | .xmlFmt => "directory_index.xml"

/-- The serialized content for one format
(`DirectoryIndexer.generate_output`, lines 206-214). -/
def renderOf (f : OutFmt) (d : Data) (ts : String) : FileContent :=
  match f with
  | .txtFmt => .txtC (generate_txt d ts)
  | .jsonFmt => .jsonC (jsonOfData d)
  | .xmlFmt => .xmlC (generate_xml d ts)

/-- The `main` driver (lines 245-397) reduced to its dataflow: if the
root path does not exist it prints `Error: Directory not found` and
returns exit code 1 before any scan or serializer call (lines 320-323);
if it is not a directory it likewise stops (lines 325-327); otherwise it
scans once and writes one file per requested format.  An error result
carries no files: the serializers and the filesystem writes occur only
in the success branch. -/
def mainRun (root : ScanRoot) (label ts : String) (fmts : List OutFmt) :
    Except MainErr (List (String × FileContent)) :=
  match root with
  | .missing => .error .notFound
  | .fileAt _ => .error .notADirectory
  | .dirAt kids =>
    let d : Data := ⟨label, scanEntries kids "" ""⟩
    .ok (fmts.map (fun f => (fileNameOf f, renderOf f d ts)))

/-! ### Size and fuel lemmas -/

lemma sizeFS_pos (e : FS) : 1 ≤ sizeFS e := by
  cases e <;> simp [sizeFS]

lemma sizeL_cons (e : FS) (l : List FS) : sizeL (e :: l) = sizeFS e + sizeL l := by
  simp [sizeL]

lemma sizeL_insEntry (e : FS) (l : List FS) : sizeL (insEntry e l) = sizeFS e + sizeL l := by
  induction l with
  | nil => simp [insEntry, sizeL]
  | cons x xs ih =>
    simp only [insEntry]
    split
    · simp [sizeL, ih]; omega
    · simp [sizeL]

lemma sizeL_sortEntries (l : List FS) : sizeL (sortEntries l) = sizeL l := by
  induction l with
  | nil => simp [sortEntries]
  | cons e rest ih => simp [sortEntries, sizeL_insEntry, ih, sizeL]

lemma sizeL_filterHidden_le (l : List FS) : sizeL (filterHidden l) ≤ sizeL l := by
  induction l with
  | nil => simp [filterHidden, sizeL]
  | cons e rest ih =>
    simp only [filterHidden, List.filter_cons] at *
    split
    · simp only [sizeL_cons]; omega
    · simp only [sizeL_cons]; have he := sizeFS_pos e; omega

lemma sizeL_scan_arg_le (l : List FS) : sizeL (sortEntries (filterHidden l)) ≤ sizeL l := by
  rw [sizeL_sortEntries]
  exact sizeL_filterHidden_le l

lemma scanLoop_nil (fuel : Nat) (rp pn : String) (idx : Nat) :
    scanLoop fuel [] rp pn idx = [] := by
  cases fuel <;> rfl

lemma scanLoop_irrel : ∀ f1 f2 l rp pn idx, sizeL l < f1 → sizeL l < f2 →
    scanLoop f1 l rp pn idx = scanLoop f2 l rp pn idx := by
  intro f1
  induction f1 with
  | zero => intro f2 l rp pn idx h1 h2; omega
  | succ f ih =>
    intro f2 l rp pn idx h1 h2
    cases f2 with
    | zero => omega
    | succ g =>
      cases l with
      | nil => simp [scanLoop]
      | cons e rest =>
        have he := sizeFS_pos e
        rw [sizeL_cons] at h1 h2
        have hrest1 : sizeL rest < f := by omega
        have hrest2 : sizeL rest < g := by omega
        cases e with
        | file n =>
          simp only [scanLoop]
          rw [ih g rest rp pn (idx + 1) hrest1 hrest2]
        | dir n r kids =>
          cases r with
          | false =>
            simp only [scanLoop]
            rw [ih g rest rp pn (idx + 1) hrest1 hrest2]
          | true =>
            have hk : sizeL (sortEntries (filterHidden kids)) ≤ sizeL kids :=
              sizeL_scan_arg_le kids
            have hsz : sizeFS (FS.dir n true kids) = 1 + sizeL kids := by simp [sizeFS]
            simp only [scanLoop]
            rw [ih g rest rp pn (idx + 1) hrest1 hrest2,
              ih g (sortEntries (filterHidden kids)) _ _ 1 (by omega) (by omega)]

lemma scanEntries_eq_loop (f : Nat) (kids : List FS) (rp pn : String) (h : sizeL kids < f) :
    scanLoop f (sortEntries (filterHidden kids)) rp pn 1 = scanEntries kids rp pn := by
  unfold scanEntries
  have hk := sizeL_scan_arg_le kids
  exact scanLoop_irrel f (sizeL kids + 1) _ rp pn 1 (by omega) (by omega)
/-! ### Comparator order lemmas -/

lemma natListLt_irrefl (a : List Nat) : natListLt a a = false := by
  induction a with
  | nil => rfl
  | cons x xs ih => simp [natListLt, ih]

lemma natListLt_asymm : ∀ a b : List Nat, natListLt a b = true → natListLt b a = false := by
  intro a
  induction a with
  | nil =>
    intro b h
    cases b with
    | nil => rfl
    | cons y ys => rfl
  | cons x xs ih =>
    intro b h
    cases b with
    | nil => simp [natListLt] at h
    | cons y ys =>
      rw [Bool.eq_false_iff]
      intro hba
      simp only [natListLt, Bool.or_eq_true, Bool.and_eq_true, decide_eq_true_eq,
        beq_iff_eq] at h hba
      rcases h with h | ⟨heq, h⟩ <;> rcases hba with hb | ⟨heq2, hb⟩
      · omega
      · omega
      · omega
      · subst heq
        simp [ih ys h] at hb

lemma natListLt_trans : ∀ a b c : List Nat, natListLt a b = true → natListLt b c = true →
    natListLt a c = true := by
  intro a
  induction a with
  | nil =>
    intro b c hab hbc
    cases b with
    | nil => simp [natListLt] at hab
    | cons y ys =>
      cases c with
      | nil => simp [natListLt] at hbc
      | cons z zs => rfl
  | cons x xs ih =>
    intro b c hab hbc
    cases b with
    | nil => simp [natListLt] at hab
    | cons y ys =>
      cases c with
      | nil => simp [natListLt] at hbc
      | cons z zs =>
        simp only [natListLt, Bool.or_eq_true, Bool.and_eq_true, decide_eq_true_eq,
          beq_iff_eq] at hab hbc ⊢
        rcases hab with h | ⟨heq, h⟩ <;> rcases hbc with hb | ⟨heq2, hb⟩
        · left; omega
        · left; omega
        · left; omega
        · subst heq; subst heq2
          exact Or.inr ⟨rfl, ih ys zs h hb⟩

lemma natListLt_connex : ∀ a b : List Nat, natListLt a b = false → natListLt b a = false →
    a = b := by
  intro a
  induction a with
  | nil =>
    intro b h1 h2
    cases b with
    | nil => rfl
    | cons y ys => simp [natListLt] at h1
  | cons x xs ih =>
    intro b h1 h2
    cases b with
    | nil => simp [natListLt] at h2
    | cons y ys =>
      rw [Bool.eq_false_iff] at h1 h2
      have hxy : ¬ x < y := fun hlt => h1 (by
        simp only [natListLt, Bool.or_eq_true, decide_eq_true_eq]
        exact Or.inl hlt)
      have hyx : ¬ y < x := fun hlt => h2 (by
        simp only [natListLt, Bool.or_eq_true, decide_eq_true_eq]
        exact Or.inl hlt)
      have heq : x = y := by omega
      subst heq
      have hxs : natListLt xs ys = false := by
        rw [Bool.eq_false_iff]
        intro hl
        exact h1 (by
          simp only [natListLt, Bool.or_eq_true, Bool.and_eq_true, beq_iff_eq]
          exact Or.inr ⟨by simp, hl⟩)
      have hys : natListLt ys xs = false := by
        rw [Bool.eq_false_iff]
        intro hl
        exact h2 (by
          simp only [natListLt, Bool.or_eq_true, Bool.and_eq_true, beq_iff_eq]
          exact Or.inr ⟨by simp, hl⟩)
      rw [ih ys hxs hys]

lemma keyLt_irrefl (k : Bool × List Nat) : keyLt k k = false := by
  obtain ⟨k1, k2⟩ := k
  simp [keyLt, natListLt_irrefl]

lemma keyLt_asymm {k1 k2 : Bool × List Nat} (h : keyLt k1 k2 = true) : keyLt k2 k1 = false := by
  obtain ⟨a1, a2⟩ := k1
  obtain ⟨b1, b2⟩ := k2
  cases a1 <;> cases b1
  · simp [keyLt] at h ⊢
    exact natListLt_asymm a2 b2 h
  · simp [keyLt]
  · simp [keyLt] at h
  · simp [keyLt] at h ⊢
    exact natListLt_asymm a2 b2 h

lemma keyLt_trans {k1 k2 k3 : Bool × List Nat} (h12 : keyLt k1 k2 = true)
    (h23 : keyLt k2 k3 = true) : keyLt k1 k3 = true := by
  obtain ⟨a1, a2⟩ := k1
  obtain ⟨b1, b2⟩ := k2
  obtain ⟨c1, c2⟩ := k3
  cases a1 <;> cases b1 <;> cases c1 <;> simp [keyLt] at h12 h23 ⊢ <;>
    exact natListLt_trans a2 b2 c2 h12 h23

lemma keyLt_connex {k1 k2 : Bool × List Nat} (h12 : keyLt k1 k2 = false)
    (h21 : keyLt k2 k1 = false) : k1 = k2 := by
  obtain ⟨a1, a2⟩ := k1
  obtain ⟨b1, b2⟩ := k2
  cases a1 <;> cases b1 <;> simp [keyLt] at h12 h21 ⊢
  · exact natListLt_connex a2 b2 h12 h21
  · exact natListLt_connex a2 b2 h12 h21

/-! ### Sorting lemmas -/

lemma mem_insEntry {y e : FS} {l : List FS} : y ∈ insEntry e l ↔ y = e ∨ y ∈ l := by
  induction l with
  | nil => simp [insEntry]
  | cons x xs ih =>
    simp only [insEntry]
    split
    · simp [ih]; tauto
    · simp [List.mem_cons]

lemma mem_sortEntries {y : FS} {l : List FS} : y ∈ sortEntries l ↔ y ∈ l := by
  induction l with
  | nil => simp [sortEntries]
  | cons e rest ih => simp [sortEntries, mem_insEntry, ih]

lemma insEntry_pairwise {e : FS} {l : List FS}
    (hl : l.Pairwise (fun a b => keyLt (entryKey b) (entryKey a) = false)) :
    (insEntry e l).Pairwise (fun a b => keyLt (entryKey b) (entryKey a) = false) := by
  induction l with
  | nil => simp [insEntry]
  | cons x xs ih =>
    rw [List.pairwise_cons] at hl
    obtain ⟨hx, hxs⟩ := hl
    simp only [insEntry]
    split
    · rename_i hlt
      rw [List.pairwise_cons]
      refine ⟨?_, ih hxs⟩
      intro y hy
      rcases mem_insEntry.1 hy with rfl | hy2
      · exact keyLt_asymm hlt
      · exact hx y hy2
    · rename_i hnlt
      rw [Bool.not_eq_true] at hnlt
      rw [List.pairwise_cons]
      constructor
      · intro y hy
        rcases List.mem_cons.1 hy with rfl | hy2
        · exact hnlt
        · have hyx := hx y hy2
          rw [Bool.eq_false_iff]
          intro hye
          rcases Bool.eq_false_or_eq_true (keyLt (entryKey x) (entryKey y)) with hxy | hxy
          · have htr := keyLt_trans hxy hye
            rw [htr] at hnlt
            simp at hnlt
          · have hk := keyLt_connex hxy hyx
            rw [← hk] at hye
            rw [hye] at hnlt
            simp at hnlt
      · exact List.pairwise_cons.2 ⟨hx, hxs⟩

lemma sortEntries_pairwise (l : List FS) :
    (sortEntries l).Pairwise (fun a b => keyLt (entryKey b) (entryKey a) = false) := by
  induction l with
  | nil => simp [sortEntries]
  | cons e rest ih => exact insEntry_pairwise ih

lemma filter_insEntry (e : FS) (l : List FS) (k : Bool × List Nat) :
    (insEntry e l).filter (fun x => decide (entryKey x = k))
      = (e :: l).filter (fun x => decide (entryKey x = k)) := by
  induction l with
  | nil => rfl
  | cons x xs ih =>
    simp only [insEntry]
    split
    · rename_i hlt
      by_cases hx : entryKey x = k
      · by_cases he2 : entryKey e = k
        · exfalso
          rw [← he2] at hx
          rw [hx, keyLt_irrefl] at hlt
          simp at hlt
        · simp only [List.filter_cons, ih, hx, he2]
          simp [hx, he2]
      · by_cases he2 : entryKey e = k
        · simp only [List.filter_cons, ih]
          simp [hx, he2]
        · simp only [List.filter_cons, ih]
          simp [hx, he2]
    · rfl

lemma filter_sortEntries (l : List FS) (k : Bool × List Nat) :
    (sortEntries l).filter (fun x => decide (entryKey x = k))
      = l.filter (fun x => decide (entryKey x = k)) := by
  induction l with
  | nil => rfl
  | cons e rest ih =>
    simp only [sortEntries, filter_insEntry, List.filter_cons, ih]

/-! ### Scan structure lemmas -/

lemma scanLoop_length : ∀ fuel l rp pn idx, sizeL l < fuel →
    (scanLoop fuel l rp pn idx).length = l.length := by
  intro fuel
  induction fuel with
  | zero => intro l rp pn idx h; omega
  | succ f ih =>
    intro l rp pn idx h
    cases l with
    | nil => simp [scanLoop]
    | cons e rest =>
      rw [sizeL_cons] at h
      have he := sizeFS_pos e
      simp only [scanLoop, List.length_cons]
      rw [ih rest rp pn (idx + 1) (by omega)]

lemma scanLoop_get_number : ∀ fuel l rp pn idx, sizeL l < fuel →
    ∀ j, ∀ hj2 : j < (scanLoop fuel l rp pn idx).length,
    ((scanLoop fuel l rp pn idx).get ⟨j, hj2⟩).number = mkNumber pn (idx + j) := by
  intro fuel
  induction fuel with
  | zero => intro l rp pn idx h; omega
  | succ f ih =>
    intro l rp pn idx h j hj2
    cases l with
    | nil => simp [scanLoop] at hj2
    | cons e rest =>
      rw [sizeL_cons] at h
      have he := sizeFS_pos e
      cases j with
      | zero =>
        simp only [scanLoop, List.get, Item.number, Nat.add_zero]
      | succ jj =>
        have hlen : (scanLoop (f + 1) (e :: rest) rp pn idx).length
            = 1 + (scanLoop f rest rp pn (idx + 1)).length := by
          simp only [scanLoop, List.length_cons]
          omega
        have hjj : jj < (scanLoop f rest rp pn (idx + 1)).length := by omega
        have hstep : ((scanLoop (f + 1) (e :: rest) rp pn idx).get ⟨jj + 1, hj2⟩)
            = (scanLoop f rest rp pn (idx + 1)).get ⟨jj, hjj⟩ := by
          simp only [scanLoop, List.get]
        rw [hstep, ih rest rp pn (idx + 1) (by omega) jj hjj]
        congr 1
        omega

lemma natToStrAux_ne_nil (fuel n : Nat) (hf : fuel ≠ 0) : natToStrAux fuel n ≠ [] := by
  cases fuel with
  | zero => exact absurd rfl hf
  | succ f =>
    simp only [natToStrAux]
    split
    · simp
    · simp

lemma natToStr_ne_empty (n : Nat) : natToStr n ≠ "" := by
  intro hcon
  have hd : (natToStr n).data = [] := by rw [hcon]
  rw [natToStr] at hd
  exact natToStrAux_ne_nil (n + 1) n (by omega) hd

lemma mkNumber_ne_empty (pn : String) (idx : Nat) : mkNumber pn idx ≠ "" := by
  unfold mkNumber
  split
  · exact natToStr_ne_empty idx
  · intro hcon
    have hd : (pn ++ "." ++ natToStr idx).data = [] := by rw [hcon]
    rw [String.data_append, String.data_append] at hd
    simp at hd

lemma mkNumber_of_ne_empty {pn : String} (h : pn ≠ "") (idx : Nat) :
    mkNumber pn idx = pn ++ "." ++ natToStr idx := by
  unfold mkNumber
  rw [if_neg h]

lemma allItemsL_append (a b : List Item) :
    allItemsL (a ++ b) = allItemsL a ++ allItemsL b := by
  induction a with
  | nil => simp [allItemsL]
  | cons i is ih => simp [allItemsL, ih]

lemma allItemsL_cons (i : Item) (is : List Item) :
    allItemsL (i :: is) = allItems1 i ++ allItemsL is := by
  simp [allItemsL]

lemma scanLoop_children_numbered : ∀ fuel l rp pn idx, sizeL l < fuel →
    ∀ parent ∈ allItemsL (scanLoop fuel l rp pn idx), ∀ j, ∀ hj : j < parent.children.length,
      (parent.children.get ⟨j, hj⟩).number = parent.number ++ "." ++ natToStr (j + 1) := by
  intro fuel
  induction fuel with
  | zero => intro l rp pn idx h; omega
  | succ f ih =>
    intro l rp pn idx h parent hp j hj
    cases l with
    | nil =>
      rw [scanLoop_nil] at hp
      simp [allItemsL] at hp
    | cons e rest =>
      rw [sizeL_cons] at h
      have he := sizeFS_pos e
      cases e with
      | file n =>
        simp only [scanLoop, allItemsL_cons, allItems1, List.mem_append, List.mem_cons] at hp
        rcases hp with (rfl | hp) | hp
        · simp [Item.children] at hj
        · simp [allItemsL] at hp
        · exact ih rest rp pn (idx + 1) (by omega) parent hp j hj
      | dir n r kids =>
        cases r with
        | false =>
          simp only [scanLoop, allItemsL_cons, allItems1, List.mem_append, List.mem_cons] at hp
          rcases hp with (rfl | hp) | hp
          · simp [Item.children] at hj
          · simp [allItemsL] at hp
          · exact ih rest rp pn (idx + 1) (by omega) parent hp j hj
        | true =>
          have hsz : sizeFS (FS.dir n true kids) = 1 + sizeL kids := by simp [sizeFS]
          have hkb : sizeL (sortEntries (filterHidden kids)) ≤ sizeL kids :=
            sizeL_scan_arg_le kids
          simp only [scanLoop, allItemsL_cons, allItems1, List.mem_append, List.mem_cons] at hp
          rcases hp with (rfl | hp) | hp
          · -- the directory node itself: its children are the scan of its listing
            simp only [Item.children] at hj ⊢
            rw [scanLoop_get_number f (sortEntries (filterHidden kids))
              (mkPath rp (FS.dir n true kids).name) (mkNumber pn idx) 1 (by omega) j hj]
            simp only [Item.number]
            rw [mkNumber_of_ne_empty (mkNumber_ne_empty pn idx), Nat.add_comm 1 j]
          · -- a descendant inside the directory node's subtree
            exact ih (sortEntries (filterHidden kids)) (mkPath rp (FS.dir n true kids).name)
              (mkNumber pn idx) 1 (by omega) parent hp j hj
          · exact ih rest rp pn (idx + 1) (by omega) parent hp j hj

lemma mkNumber_empty_pn (idx : Nat) : mkNumber "" idx = natToStr idx := by
  unfold mkNumber
  rw [if_pos rfl]

/-- C1: in the built hierarchy, the children of any node carry the
numbers `parent.number ++ "." ++ str(k)` for `k` the child's 1-based
rank among its (sorted, filtered) siblings, and a root-level node at
1-based rank `k` carries the number `str(k)` with no parent prefix. -/
theorem c1_number_parent_rank (es : List FS) :
    (∀ j, ∀ hj : j < (scanEntries es "" "").length,
        ((scanEntries es "" "").get ⟨j, hj⟩).number = natToStr (j + 1))
    ∧ ∀ parent ∈ allItemsL (scanEntries es "" ""), ∀ j, ∀ hj : j < parent.children.length,
        (parent.children.get ⟨j, hj⟩).number = parent.number ++ "." ++ natToStr (j + 1) := by
  have hfuel : sizeL (sortEntries (filterHidden es)) < sizeL es + 1 := by
    have := sizeL_scan_arg_le es
    omega
  constructor
  · intro j hj
    unfold scanEntries at hj ⊢
    rw [scanLoop_get_number (sizeL es + 1) (sortEntries (filterHidden es)) "" "" 1 hfuel j hj]
    rw [mkNumber_empty_pn, Nat.add_comm 1 j]
  · intro parent hp j hj
    unfold scanEntries at hp
    exact scanLoop_children_numbered (sizeL es + 1) (sortEntries (filterHidden es)) "" "" 1
      hfuel parent hp j hj

/-- The root listing of test Scenario A: `b.txt`, a directory `A`
containing `z.txt`, a hidden entry `.hidden`, and `a.txt`. -/
def exScenarioA : List FS :=
  [FS.file "b.txt", FS.dir "A" true [FS.file "z.txt"], FS.file ".hidden", FS.file "a.txt"]

/-- C3: scanning Scenario A numbers directory `A` as `1`, its child
`z.txt` as `1.1`, `a.txt` as `2` and `b.txt` as `3`, and the hierarchy
contains no node named `.hidden`. -/
theorem c3_scenario_a :
    scanEntries exScenarioA "" ""
      = [Item.mk "1" "A" "directory" "A" [Item.mk "1.1" "z.txt" "file" "A/z.txt" []],
         Item.mk "2" "a.txt" "file" "a.txt" [],
         Item.mk "3" "b.txt" "file" "b.txt" []]
    ∧ ".hidden" ∉ (allItemsL (scanEntries exScenarioA "" "")).map Item.name := by
  constructor
  · rfl
  · decide

lemma scanLoop_map_tn : ∀ fuel l rp pn idx, sizeL l < fuel →
    (scanLoop fuel l rp pn idx).map (fun it => (it.type, it.name))
      = l.map (fun e => ((if e.isDir then "directory" else "file"), e.name)) := by
  intro fuel
  induction fuel with
  | zero => intro l rp pn idx h; omega
  | succ f ih =>
    intro l rp pn idx h
    cases l with
    | nil => simp [scanLoop]
    | cons e rest =>
      rw [sizeL_cons] at h
      have he := sizeFS_pos e
      simp only [scanLoop, List.map_cons]
      rw [ih rest rp pn (idx + 1) (by omega)]
      rfl

/-- C2: in every produced sibling list, whenever `a` comes before `b`,
if `a` is a file then so is `b` (directories precede files), and among
nodes of the same kind the lowercased names are in non-decreasing
code-point order; moreover the sort is stable — for every comparator
key, the entries carrying that key appear in the same order as in the
filtered input listing. -/
theorem c2_sibling_order_stable (es : List FS) (rp pn : String) :
    (scanEntries es rp pn).Pairwise (fun a b =>
        (a.type = "file" → b.type = "file")
        ∧ (a.type = b.type → natListLe (lowerKey a.name) (lowerKey b.name) = true))
    ∧ ∀ k : Bool × List Nat,
        (sortEntries (filterHidden es)).filter (fun e => decide (entryKey e = k))
          = (filterHidden es).filter (fun e => decide (entryKey e = k)) := by
  constructor
  · have hfuel : sizeL (sortEntries (filterHidden es)) < sizeL es + 1 := by
      have := sizeL_scan_arg_le es
      omega
    have hmap := scanLoop_map_tn (sizeL es + 1) (sortEntries (filterHidden es)) rp pn 1 hfuel
    have hpw := sortEntries_pairwise (filterHidden es)
    have himp : ∀ a b : FS, keyLt (entryKey b) (entryKey a) = false →
        ((if a.isDir then "directory" else "file") = "file" →
            (if b.isDir then "directory" else "file") = "file")
        ∧ ((if a.isDir then "directory" else "file") = (if b.isDir then "directory" else "file") →
            natListLe (lowerKey a.name) (lowerKey b.name) = true) := by
      intro a b hab
      cases ha : a.isDir <;> cases hb : b.isDir
      · -- both files
        simp [entryKey, ha, hb, keyLt] at hab
        simp [ha, hb, natListLe, hab]
      · -- a file before b directory: contradicts the sortedness relation
        simp [entryKey, ha, hb, keyLt] at hab
      · -- a directory, b file: both implications have false premises
        constructor
        · intro hf
          rw [if_pos rfl] at hf
          exact absurd hf (by decide)
        · intro ht
          rw [if_pos rfl, if_neg (by decide)] at ht
          exact absurd ht (by decide)
      · -- both directories
        simp [entryKey, ha, hb, keyLt] at hab
        simp [ha, hb, natListLe, hab]
    have h1 : ((scanEntries es rp pn).map (fun it => (it.type, it.name))).Pairwise
        (fun a b => (a.1 = "file" → b.1 = "file")
          ∧ (a.1 = b.1 → natListLe (lowerKey a.2) (lowerKey b.2) = true)) := by
      unfold scanEntries
      rw [hmap, List.pairwise_map]
      exact hpw.imp (fun hab => himp _ _ hab)
    rw [List.pairwise_map] at h1
    exact h1
  · exact fun k => filter_sortEntries (filterHidden es) k

/-- C4: when the root path does not exist, the run fails with the
`NotFound` error (lines 321-323 print `Directory not found` and return
exit code 1 before `DirectoryIndexer` is even constructed), the scan
never starts, and the error result carries no output files — no
serializer is invoked and nothing is written. -/
theorem c4_root_not_found (label ts : String) (fmts : List OutFmt) :
    mainRun .missing label ts fmts = .error .notFound
    ∧ ∀ files, mainRun .missing label ts fmts ≠ .ok files :=
  ⟨rfl, fun _ h => Except.noConfusion h⟩

/-! ### Item-tree size, used for induction over hierarchies -/

mutual

/-- Number of nodes of one subtree. -/
def sizeItem : Item → Nat
  | .mk _ _ _ _ cs => 1 + sizeItems cs

/-- Number of nodes of a hierarchy. -/
def sizeItems : List Item → Nat
  | [] => 0
  | i :: is => sizeItem i + sizeItems is

end

lemma sizeItem_pos (i : Item) : 1 ≤ sizeItem i := by
  obtain ⟨n, nm, t, p, cs⟩ := i
  simp [sizeItem]

lemma txtBody_eq_aux : ∀ n items d, sizeItems items ≤ n →
    txtBody items d = (allItemsDepthL items d).map lineOf := by
  intro n
  induction n with
  | zero =>
    intro items d h
    cases items with
    | nil => rfl
    | cons i is =>
      have := sizeItem_pos i
      rw [sizeItems] at h
      omega
  | succ k ih =>
    intro items d h
    cases items with
    | nil => rfl
    | cons i is =>
      obtain ⟨num, nm, t, p, cs⟩ := i
      rw [sizeItems, sizeItem] at h
      simp only [txtBody, txtItem, allItemsDepthL, allItemsDepth1, List.map_append,
        List.map_cons]
      rw [ih is d (by omega)]
      by_cases hcs : cs.isEmpty
      · rw [if_pos hcs]
        rw [List.isEmpty_iff] at hcs
        subst hcs
        simp [allItemsDepthL, lineOf, Item.number, Item.type, Item.name]
      · rw [if_neg hcs]
        rw [ih cs (d + 1) (by omega)]
        simp [lineOf, Item.number, Item.type, Item.name]

lemma txtBody_eq (items : List Item) (d : Nat) :
    txtBody items d = (allItemsDepthL items d).map lineOf :=
  txtBody_eq_aux (sizeItems items) items d (Nat.le_refl _)

lemma allItemsDepthL_fst_aux : ∀ n items d, sizeItems items ≤ n →
    (allItemsDepthL items d).map Prod.fst = allItemsL items := by
  intro n
  induction n with
  | zero =>
    intro items d h
    cases items with
    | nil => rfl
    | cons i is =>
      have := sizeItem_pos i
      rw [sizeItems] at h
      omega
  | succ k ih =>
    intro items d h
    cases items with
    | nil => rfl
    | cons i is =>
      obtain ⟨num, nm, t, p, cs⟩ := i
      rw [sizeItems, sizeItem] at h
      simp only [allItemsDepthL, allItemsDepth1, allItemsL, allItems1, List.map_append,
        List.map_cons]
      rw [ih is d (by omega), ih cs (d + 1) (by omega)]

lemma allItemsDepthL_fst (items : List Item) (d : Nat) :
    (allItemsDepthL items d).map Prod.fst = allItemsL items :=
  allItemsDepthL_fst_aux (sizeItems items) items d (Nat.le_refl _)

lemma jsonNames_eq_aux : ∀ n items, sizeItems items ≤ n →
    jsonNamesL (jsonOfItems items) = (allItemsL items).map Item.name := by
  intro n
  induction n with
  | zero =>
    intro items h
    cases items with
    | nil => rfl
    | cons i is =>
      have := sizeItem_pos i
      rw [sizeItems] at h
      omega
  | succ k ih =>
    intro items h
    cases items with
    | nil => rfl
    | cons i is =>
      obtain ⟨num, nm, t, p, cs⟩ := i
      rw [sizeItems, sizeItem] at h
      simp only [jsonOfItems, jsonOfItem, jsonNamesL, jsonNames1, jsonNamesF, strVals,
        allItemsL, allItems1, List.map_cons, List.map_append]
      rw [ih is (by omega), ih cs (by omega)]
      simp [Item.name]

lemma jsonNames_eq (items : List Item) :
    jsonNamesL (jsonOfItems items) = (allItemsL items).map Item.name :=
  jsonNames_eq_aux (sizeItems items) items (Nat.le_refl _)

lemma xmlNames_eq_aux : ∀ n items, sizeItems items ≤ n →
    xmlNamesL (xmlOfItems items) = (allItemsL items).map Item.name := by
  intro n
  induction n with
  | zero =>
    intro items h
    cases items with
    | nil => rfl
    | cons i is =>
      have := sizeItem_pos i
      rw [sizeItems] at h
      omega
  | succ k ih =>
    intro items h
    cases items with
    | nil => rfl
    | cons i is =>
      obtain ⟨num, nm, t, p, cs⟩ := i
      rw [sizeItems, sizeItem] at h
      simp only [xmlOfItems, xmlOfItem, xmlNamesL, xmlNames1, textsOfL,
        allItemsL, allItems1, List.map_cons, List.map_append]
      rw [ih is (by omega)]
      by_cases hcs : cs.isEmpty
      · rw [if_pos hcs]
        rw [List.isEmpty_iff] at hcs
        subst hcs
        simp [xmlNamesL, xmlNames1, textsOfL, allItemsL, Item.name]
      · rw [if_neg hcs]
        simp only [xmlNamesL, xmlNames1, textsOfL, List.append_nil, List.nil_append]
        rw [ih cs (by omega)]
        simp [Item.name]

lemma xmlNames_eq (items : List Item) :
    xmlNamesL (xmlOfItems items) = (allItemsL items).map Item.name :=
  xmlNames_eq_aux (sizeItems items) items (Nat.le_refl _)

lemma mem_scan_arg_not_hidden {e : FS} {l : List FS}
    (h : e ∈ sortEntries (filterHidden l)) : startsDot e.name = false := by
  have h2 := mem_sortEntries.1 h
  rw [filterHidden] at h2
  have h3 := List.mem_filter.1 h2
  simpa using h3.2

lemma scanLoop_names_not_hidden : ∀ fuel l rp pn idx, sizeL l < fuel →
    (∀ e ∈ l, startsDot e.name = false) →
    ∀ it ∈ allItemsL (scanLoop fuel l rp pn idx), startsDot it.name = false := by
  intro fuel
  induction fuel with
  | zero => intro l rp pn idx h; omega
  | succ f ih =>
    intro l rp pn idx h hl it hit
    cases l with
    | nil =>
      rw [scanLoop_nil] at hit
      simp [allItemsL] at hit
    | cons e rest =>
      rw [sizeL_cons] at h
      have he := sizeFS_pos e
      cases e with
      | file n =>
        simp only [scanLoop, allItemsL_cons, allItems1, List.mem_append, List.mem_cons] at hit
        rcases hit with (rfl | hit) | hit
        · simpa [Item.name] using hl (FS.file n) (by simp)
        · simp [allItemsL] at hit
        · exact ih rest rp pn (idx + 1) (by omega) (fun x hx => hl x (by simp [hx])) it hit
      | dir n r kids =>
        cases r with
        | false =>
          simp only [scanLoop, allItemsL_cons, allItems1, List.mem_append, List.mem_cons] at hit
          rcases hit with (rfl | hit) | hit
          · simpa [Item.name] using hl (FS.dir n false kids) (by simp)
          · simp [allItemsL] at hit
          · exact ih rest rp pn (idx + 1) (by omega) (fun x hx => hl x (by simp [hx])) it hit
        | true =>
          have hsz : sizeFS (FS.dir n true kids) = 1 + sizeL kids := by simp [sizeFS]
          have hkb : sizeL (sortEntries (filterHidden kids)) ≤ sizeL kids :=
            sizeL_scan_arg_le kids
          simp only [scanLoop, allItemsL_cons, allItems1, List.mem_append, List.mem_cons] at hit
          rcases hit with (rfl | hit) | hit
          · simpa [Item.name] using hl (FS.dir n true kids) (by simp)
          · exact ih (sortEntries (filterHidden kids)) (mkPath rp (FS.dir n true kids).name)
              (mkNumber pn idx) 1 (by omega)
              (fun x hx => mem_scan_arg_not_hidden hx) it hit
          · exact ih rest rp pn (idx + 1) (by omega) (fun x hx => hl x (by simp [hx])) it hit

/-- C5: no node of the built hierarchy has a name starting with `.`
(hidden entries are dropped before numbering at every level), and each
serializer's output embeds exactly the hierarchy's node names — the text
lines are the per-node lines of the pre-order traversal, and the `name`
fields/elements of the JSON and XML documents list exactly the
hierarchy's names — so hidden names appear in no serializer output. -/
theorem c5_hidden_excluded (es : List FS) (rp pn label ts : String) :
    (∀ it ∈ allItemsL (scanEntries es rp pn), startsDot it.name = false)
    ∧ txtLines ⟨label, scanEntries es rp pn⟩ ts
        = ["Directory Index: " ++ label, "Generated: " ++ ts, sepLine, ""]
          ++ (allItemsDepthL (scanEntries es rp pn) 0).map lineOf
    ∧ jsonNames1 (jsonOfData ⟨label, scanEntries es rp pn⟩)
        = (allItemsL (scanEntries es rp pn)).map Item.name
    ∧ xmlNames1 (xmlOfData ⟨label, scanEntries es rp pn⟩ ts)
        = (allItemsL (scanEntries es rp pn)).map Item.name := by
  refine ⟨?_, ?_, ?_, ?_⟩
  · intro it hit
    unfold scanEntries at hit
    have hfuel : sizeL (sortEntries (filterHidden es)) < sizeL es + 1 := by
      have := sizeL_scan_arg_le es
      omega
    exact scanLoop_names_not_hidden (sizeL es + 1) (sortEntries (filterHidden es)) rp pn 1
      hfuel (fun e he => mem_scan_arg_not_hidden he) it hit
  · rw [txtLines, txtBody_eq]
  · simp only [jsonOfData, jsonNames1, jsonNamesF, strVals]
    rw [jsonNames_eq]
    simp
  · simp only [xmlOfData, xmlNames1]
    rw [xmlNames_eq]
    simp

/-- A small concrete document used to exhibit the header shape of the
text serializer. -/
def exDoc : Data :=
  ⟨"demo", [Item.mk "1" "a.txt" "file" "a.txt" []]⟩

/-- C8 counterexample: the node lines of the text output are *not*
preceded by a two-line header — `generate_txt` (lines 99-104) puts four
lines (title, timestamp, separator, blank) before the first node line,
so the output is not two header lines followed by the node lines. -/
theorem c8_counterexample :
    txtLines exDoc "2024-01-01 00:00:00"
      ≠ (txtLines exDoc "2024-01-01 00:00:00").take 2
          ++ (allItemsDepthL exDoc.hierarchy 0).map lineOf := by
  decide

/-- C8 (amended): the text serializer emits a FOUR-line header — a title
line naming the indexed root, a timestamp line, a separator of 60 `=`
characters and a blank line — followed by exactly one line per node in
pre-order (each node immediately followed by its descendants), each line
indented two spaces per depth level and formatted
`<number>. <kind-marker> <name>`. -/
theorem c8_txt_format (d : Data) (ts : String) :
    txtLines d ts
      = ["Directory Index: " ++ d.root, "Generated: " ++ ts, sepLine, ""]
        ++ (allItemsDepthL d.hierarchy 0).map lineOf
    ∧ (txtLines d ts).length = 4 + (allItemsL d.hierarchy).length := by
  have hlen : (allItemsL d.hierarchy).length = (allItemsDepthL d.hierarchy 0).length := by
    rw [← allItemsDepthL_fst d.hierarchy 0, List.length_map]
  constructor
  · rw [txtLines, txtBody_eq]
  · rw [txtLines, txtBody_eq]
    simp [hlen]
    omega

lemma parseItems_jsonOfItems : ∀ n items, sizeItems items ≤ n →
    parseItems (jsonOfItems items) = some items := by
  intro n
  induction n with
  | zero =>
    intro items h
    cases items with
    | nil => rfl
    | cons i is =>
      have := sizeItem_pos i
      rw [sizeItems] at h
      omega
  | succ k ih =>
    intro items h
    cases items with
    | nil => rfl
    | cons i is =>
      obtain ⟨num, nm, t, p, cs⟩ := i
      rw [sizeItems, sizeItem] at h
      have h1 : parseItems (jsonOfItems cs) = some cs := ih cs (by omega)
      have h2 : parseItems (jsonOfItems is) = some is := ih is (by omega)
      simp [jsonOfItems, jsonOfItem, parseItems, parseItem, h1, h2]

/-- C7: parsing the JSON document emitted by the structured-document
serializer recovers the original `IndexDocument` exactly, and in
particular the `(number, name, kind, relativePath)` tuples of the
parsed tree equal those of the original hierarchy — the representation
is lossless. -/
theorem c7_json_round_trip (d : Data) :
    parseData (jsonOfData d) = some d
    ∧ (parseData (jsonOfData d)).map (fun d2 => tuplesOf d2.hierarchy)
        = some (tuplesOf d.hierarchy) := by
  have h : parseItems (jsonOfItems d.hierarchy) = some d.hierarchy :=
    parseItems_jsonOfItems (sizeItems d.hierarchy) d.hierarchy (Nat.le_refl _)
  have h1 : parseData (jsonOfData d) = some d := by
    simp [jsonOfData, parseData, h]
  exact ⟨h1, by rw [h1]; rfl⟩

lemma writeData_mem (x : Char) : ∀ s, x ∈ writeData s →
    x ∈ (['&', 'a', 'm', 'p', ';', 'l', 't', 'q', 'u', 'o', 'g'] : List Char)
    ∨ (x ∈ s ∧ ¬x = '&' ∧ ¬x = '<' ∧ ¬x = '"' ∧ ¬x = '>') := by
  intro s
  induction s with
  | nil => simp [writeData]
  | cons c rest ih =>
    intro hx
    simp only [writeData, List.mem_append] at hx
    rcases hx with hx | hx
    · by_cases h1 : c = '&'
      · subst h1
        rw [if_pos rfl] at hx
        left
        simp at hx ⊢
        tauto
      · rw [if_neg h1] at hx
        by_cases h2 : c = '<'
        · subst h2
          rw [if_pos rfl] at hx
          left
          simp at hx ⊢
          tauto
        · rw [if_neg h2] at hx
          by_cases h3 : c = '"'
          · subst h3
            rw [if_pos rfl] at hx
            left
            simp at hx ⊢
            tauto
          · rw [if_neg h3] at hx
            by_cases h4 : c = '>'
            · subst h4
              rw [if_pos rfl] at hx
              left
              simp at hx ⊢
              tauto
            · rw [if_neg h4] at hx
              simp at hx
              subst hx
              right
              exact ⟨by simp, h1, h2, h3, h4⟩
    · rcases ih hx with h | ⟨hmem, hs⟩
      · left
        exact h
      · right
        exact ⟨List.mem_cons_of_mem _ hmem, hs⟩

lemma writeData_safe (s : List Char) :
    '<' ∉ writeData s ∧ '>' ∉ writeData s ∧ '"' ∉ writeData s := by
  refine ⟨fun h => ?_, fun h => ?_, fun h => ?_⟩ <;>
    rcases writeData_mem _ s h with h2 | ⟨_, h3⟩
  · exact absurd h2 (by decide)
  · exact absurd rfl h3.2.1
  · exact absurd h2 (by decide)
  · exact absurd rfl h3.2.2.2
  · exact absurd h2 (by decide)
  · exact absurd rfl h3.2.2.1

lemma unescapeAux_writeData : ∀ fuel s, (writeData s).length ≤ fuel →
    unescapeAux fuel (writeData s) = s := by
  intro fuel
  induction fuel with
  | zero =>
    intro s h
    cases s with
    | nil => rfl
    | cons c rest =>
      exfalso
      simp only [writeData, List.length_append] at h
      have hb : 1 ≤ (if c = '&' then ['&', 'a', 'm', 'p', ';']
          else if c = '<' then ['&', 'l', 't', ';']
          else if c = '"' then ['&', 'q', 'u', 'o', 't', ';']
          else if c = '>' then ['&', 'g', 't', ';']
          else [c]).length := by
        split_ifs <;> simp
      omega
  | succ f ih =>
    intro s h
    cases s with
    | nil => rfl
    | cons c rest =>
      simp only [writeData] at h ⊢
      by_cases h1 : c = '&'
      · subst h1
        rw [if_pos rfl] at h ⊢
        simp only [List.cons_append, List.nil_append] at h ⊢
        rw [show unescapeAux (f + 1) ('&' :: 'a' :: 'm' :: 'p' :: ';' :: writeData rest)
            = '&' :: unescapeAux f (writeData rest) from by simp [unescapeAux]]
        rw [ih rest (by simp only [List.length_cons] at h; omega)]
      · rw [if_neg h1] at h ⊢
        by_cases h2 : c = '<'
        · subst h2
          rw [if_pos rfl] at h ⊢
          simp only [List.cons_append, List.nil_append] at h ⊢
          rw [show unescapeAux (f + 1) ('&' :: 'l' :: 't' :: ';' :: writeData rest)
              = '<' :: unescapeAux f (writeData rest) from by simp [unescapeAux]]
          rw [ih rest (by simp only [List.length_cons] at h; omega)]
        · rw [if_neg h2] at h ⊢
          by_cases h3 : c = '"'
          · subst h3
            rw [if_pos rfl] at h ⊢
            simp only [List.cons_append, List.nil_append] at h ⊢
            rw [show unescapeAux (f + 1) ('&' :: 'q' :: 'u' :: 'o' :: 't' :: ';' :: writeData rest)
                = '"' :: unescapeAux f (writeData rest) from by simp [unescapeAux]]
            rw [ih rest (by simp only [List.length_cons] at h; omega)]
          · rw [if_neg h3] at h ⊢
            by_cases h4 : c = '>'
            · subst h4
              rw [if_pos rfl] at h ⊢
              simp only [List.cons_append, List.nil_append] at h ⊢
              rw [show unescapeAux (f + 1) ('&' :: 'g' :: 't' :: ';' :: writeData rest)
                  = '>' :: unescapeAux f (writeData rest) from by simp [unescapeAux]]
              rw [ih rest (by simp only [List.length_cons] at h; omega)]
            · rw [if_neg h4] at h ⊢
              simp only [List.cons_append, List.nil_append] at h ⊢
              rw [show unescapeAux (f + 1) (c :: writeData rest)
                  = c :: unescapeAux f (writeData rest) from by simp [unescapeAux, h1]]
              rw [ih rest (by simp only [List.length_cons] at h; omega)]

lemma ampsOkAux_writeData : ∀ fuel s, ampsOkAux fuel (writeData s) = true := by
  intro fuel
  induction fuel with
  | zero => intro s; rfl
  | succ f ih =>
    intro s
    cases s with
    | nil => rfl
    | cons c rest =>
      simp only [writeData]
      by_cases h1 : c = '&'
      · subst h1
        rw [if_pos rfl]
        simp only [List.cons_append, List.nil_append]
        rw [show ampsOkAux (f + 1) ('&' :: 'a' :: 'm' :: 'p' :: ';' :: writeData rest)
            = ampsOkAux f (writeData rest) from by simp [ampsOkAux]]
        exact ih rest
      · rw [if_neg h1]
        by_cases h2 : c = '<'
        · subst h2
          rw [if_pos rfl]
          simp only [List.cons_append, List.nil_append]
          rw [show ampsOkAux (f + 1) ('&' :: 'l' :: 't' :: ';' :: writeData rest)
              = ampsOkAux f (writeData rest) from by simp [ampsOkAux]]
          exact ih rest
        · rw [if_neg h2]
          by_cases h3 : c = '"'
          · subst h3
            rw [if_pos rfl]
            simp only [List.cons_append, List.nil_append]
            rw [show ampsOkAux (f + 1) ('&' :: 'q' :: 'u' :: 'o' :: 't' :: ';' :: writeData rest)
                = ampsOkAux f (writeData rest) from by simp [ampsOkAux]]
            exact ih rest
          · rw [if_neg h3]
            by_cases h4 : c = '>'
            · subst h4
              rw [if_pos rfl]
              simp only [List.cons_append, List.nil_append]
              rw [show ampsOkAux (f + 1) ('&' :: 'g' :: 't' :: ';' :: writeData rest)
                  = ampsOkAux f (writeData rest) from by simp [ampsOkAux]]
              exact ih rest
            · rw [if_neg h4]
              simp only [List.cons_append, List.nil_append]
              rw [show ampsOkAux (f + 1) (c :: writeData rest)
                  = ampsOkAux f (writeData rest) from by simp [ampsOkAux, h1]]
              exact ih rest

/-- C9: the markup serializer's character-data escaping (`_write_data`,
applied by `toprettyxml` to every node name, relative path and attribute
value in the final output) is lossless and leaves no unsafe character:
decoding the escaped text recovers the original exactly, the escaped
text contains no raw `<`, `>` or `"`, and every `&` in it begins one of
the four emitted entities, so `<`, `&`, `>` and `"` are all escaped
wherever they occur. -/
theorem c9_xml_escaping (s : String) :
    unescapeXml (writeData s.data) = s.data
    ∧ '<' ∉ writeData s.data ∧ '>' ∉ writeData s.data ∧ '"' ∉ writeData s.data
    ∧ ampsOk (writeData s.data) = true := by
  obtain ⟨h1, h2, h3⟩ := writeData_safe s.data
  refine ⟨?_, h1, h2, h3, ?_⟩
  · rw [unescapeXml]
    exact unescapeAux_writeData _ s.data (Nat.le_refl _)
  · rw [ampsOk]
    exact ampsOkAux_writeData _ s.data

/-! ### Congruence of the scan under entry replacement (for C6) -/

lemma sizeL_append (a b : List FS) : sizeL (a ++ b) = sizeL a + sizeL b := by
  induction a with
  | nil => simp [sizeL]
  | cons e r ih => simp [sizeL_cons, ih]; omega

lemma entryKey_of_rel {R : FS → FS → Prop}
    (hkey : ∀ a b, R a b → FS.name a = FS.name b ∧ FS.isDir a = FS.isDir b)
    {a b : FS} (h : R a b) : entryKey a = entryKey b := by
  obtain ⟨hn, hd⟩ := hkey a b h
  simp [entryKey, hn, hd]

lemma filterHidden_rel {R : FS → FS → Prop}
    (hkey : ∀ a b, R a b → FS.name a = FS.name b ∧ FS.isDir a = FS.isDir b)
    {l l' : List FS} (h : List.Forall₂ R l l') :
    List.Forall₂ R (filterHidden l) (filterHidden l') := by
  induction h with
  | nil => exact List.Forall₂.nil
  | cons hab htail ih =>
    rename_i a b as bs
    simp only [filterHidden, List.filter_cons]
    rw [(hkey a b hab).1]
    split
    · exact List.Forall₂.cons hab ih
    · exact ih

lemma insEntry_rel {R : FS → FS → Prop}
    (hkey : ∀ a b, R a b → FS.name a = FS.name b ∧ FS.isDir a = FS.isDir b)
    {e e' : FS} (he : R e e') {l l' : List FS} (h : List.Forall₂ R l l') :
    List.Forall₂ R (insEntry e l) (insEntry e' l') := by
  induction h with
  | nil => exact List.Forall₂.cons he List.Forall₂.nil
  | cons hab htail ih =>
    rename_i a b as bs
    simp only [insEntry]
    rw [entryKey_of_rel hkey hab, entryKey_of_rel hkey he]
    split
    · exact List.Forall₂.cons hab ih
    · exact List.Forall₂.cons he (List.Forall₂.cons hab htail)

lemma sortEntries_rel {R : FS → FS → Prop}
    (hkey : ∀ a b, R a b → FS.name a = FS.name b ∧ FS.isDir a = FS.isDir b)
    {l l' : List FS} (h : List.Forall₂ R l l') :
    List.Forall₂ R (sortEntries l) (sortEntries l') := by
  induction h with
  | nil => exact List.Forall₂.nil
  | cons hab htail ih =>
    exact insEntry_rel hkey hab ih

/-- Relates an entry to itself, or the unreadable directory `n` (with
any subtree) to an empty readable directory `n`. -/
def UnreadEmpty (n : String) (kids : List FS) : FS → FS → Prop :=
  fun a b => a = b ∨ (a = FS.dir n false kids ∧ b = FS.dir n true [])

lemma unreadEmpty_key (n : String) (kids : List FS) :
    ∀ a b, UnreadEmpty n kids a b → FS.name a = FS.name b ∧ FS.isDir a = FS.isDir b := by
  intro a b h
  rcases h with rfl | ⟨rfl, rfl⟩
  · exact ⟨rfl, rfl⟩
  · exact ⟨rfl, rfl⟩

lemma scanLoop_unreadable_empty (n : String) (kids : List FS) :
    ∀ fuel l l' rp pn idx, sizeL l < fuel → sizeL l' < fuel →
    List.Forall₂ (UnreadEmpty n kids) l l' →
    scanLoop fuel l rp pn idx = scanLoop fuel l' rp pn idx := by
  intro fuel
  induction fuel with
  | zero => intro l l' rp pn idx h1 h2 hrel; omega
  | succ f ih =>
    intro l l' rp pn idx h1 h2 hrel
    cases hrel with
    | nil => rfl
    | cons hab htail =>
      rename_i a b as bs
      rw [sizeL_cons] at h1 h2
      have ha := sizeFS_pos a
      have hb := sizeFS_pos b
      rcases hab with rfl | ⟨rfl, rfl⟩
      · -- identical head entries; only the tails differ
        cases a with
        | file m =>
          simp only [scanLoop]
          rw [ih as bs rp pn (idx + 1) (by omega) (by omega) htail]
        | dir m r mkids =>
          cases r with
          | false =>
            simp only [scanLoop]
            rw [ih as bs rp pn (idx + 1) (by omega) (by omega) htail]
          | true =>
            simp only [scanLoop]
            rw [ih as bs rp pn (idx + 1) (by omega) (by omega) htail]
      · -- the unreadable directory against the empty readable one
        have hch : scanLoop f (sortEntries (filterHidden ([] : List FS)))
            (mkPath rp n) (mkNumber pn idx) 1 = [] := by
          rw [show sortEntries (filterHidden ([] : List FS)) = [] from rfl, scanLoop_nil]
        simp only [scanLoop, FS.name, FS.isDir, hch]
        rw [ih as bs rp pn (idx + 1) (by omega) (by omega) htail]

/-- Relates a node of the scan of a tree containing the unreadable
directory `n` to the corresponding node of the scan of the same tree
with `n` readable: all scalar fields agree, and the children agree
except that the unreadable directory's node has an empty list. -/
def ItemAgree (n : String) : Item → Item → Prop :=
  fun a b => a.number = b.number ∧ a.name = b.name ∧ a.type = b.type ∧ a.path = b.path
    ∧ (a.children = b.children ∨ (a.name = n ∧ a.children = []))

/-- Relates an entry to itself, or the unreadable directory `n` to the
same directory readable, with the same subtree. -/
def UnreadSame (n : String) (kids : List FS) : FS → FS → Prop :=
  fun a b => a = b ∨ (a = FS.dir n false kids ∧ b = FS.dir n true kids)

lemma unreadSame_key (n : String) (kids : List FS) :
    ∀ a b, UnreadSame n kids a b → FS.name a = FS.name b ∧ FS.isDir a = FS.isDir b := by
  intro a b h
  rcases h with rfl | ⟨rfl, rfl⟩
  · exact ⟨rfl, rfl⟩
  · exact ⟨rfl, rfl⟩

lemma scanLoop_unreadable_agree (n : String) (kids : List FS) :
    ∀ f1 f2 l l' rp pn idx, sizeL l < f1 → sizeL l' < f2 →
    List.Forall₂ (UnreadSame n kids) l l' →
    List.Forall₂ (ItemAgree n) (scanLoop f1 l rp pn idx) (scanLoop f2 l' rp pn idx) := by
  intro f1
  induction f1 with
  | zero => intro f2 l l' rp pn idx h1 h2 hrel; omega
  | succ f ih =>
    intro f2 l l' rp pn idx h1 h2 hrel
    cases f2 with
    | zero => omega
    | succ g =>
      cases hrel with
      | nil =>
        rw [scanLoop_nil, scanLoop_nil]
        exact List.Forall₂.nil
      | cons hab htail =>
        rename_i a b as bs
        rw [sizeL_cons] at h1 h2
        have ha := sizeFS_pos a
        have hb := sizeFS_pos b
        rcases hab with rfl | ⟨rfl, rfl⟩
        · -- identical head entries: the two nodes are equal up to fuel
          refine List.Forall₂.cons ?_ (ih g as bs rp pn (idx + 1) (by omega) (by omega) htail)
          cases a with
          | file m =>
            simp only [scanLoop]
            exact ⟨rfl, rfl, rfl, rfl, Or.inl rfl⟩
          | dir m r mkids =>
            cases r with
            | false =>
              simp only [scanLoop]
              exact ⟨rfl, rfl, rfl, rfl, Or.inl rfl⟩
            | true =>
              have hsz : sizeFS (FS.dir m true mkids) = 1 + sizeL mkids := by simp [sizeFS]
              have hkb : sizeL (sortEntries (filterHidden mkids)) ≤ sizeL mkids :=
                sizeL_scan_arg_le mkids
              simp only [scanLoop]
              refine ⟨rfl, rfl, rfl, rfl, Or.inl ?_⟩
              simp only [Item.children]
              exact scanLoop_irrel f g _ _ _ 1 (by omega) (by omega)
        · -- the unreadable directory against the readable one
          refine List.Forall₂.cons ?_ (ih g as bs rp pn (idx + 1) (by omega) (by omega) htail)
          simp only [scanLoop, FS.name, FS.isDir]
          exact ⟨rfl, rfl, rfl, rfl, Or.inr ⟨rfl, rfl⟩⟩

/-- C6 (amended): replacing a nested unreadable subdirectory by an
empty readable one changes nothing — the scan completes with the
subdirectory's node present and an empty `children` list — and against
the same tree with the subdirectory readable, every node agrees on
`number`, `name`, `type` and `path` (so all sibling, parent and
unrelated numbering is unchanged), the only difference being the
unreadable directory's empty `children`.  The parameters `rp`, `pn`
place the listing at an arbitrary nesting depth.  However, no warning
is recorded (see the counterexample): the error is swallowed
silently. -/
theorem c6_unreadable_subdir (l1 l2 kids : List FS) (n rp pn : String) :
    scanEntries (l1 ++ FS.dir n false kids :: l2) rp pn
        = scanEntries (l1 ++ FS.dir n true [] :: l2) rp pn
    ∧ List.Forall₂ (ItemAgree n)
        (scanEntries (l1 ++ FS.dir n false kids :: l2) rp pn)
        (scanEntries (l1 ++ FS.dir n true kids :: l2) rp pn) := by
  constructor
  · have hrel : List.Forall₂ (UnreadEmpty n kids)
        (l1 ++ FS.dir n false kids :: l2) (l1 ++ FS.dir n true [] :: l2) := by
      apply List.rel_append
      · exact List.forall₂_same.2 (fun x _ => Or.inl rfl)
      · exact List.Forall₂.cons (Or.inr ⟨rfl, rfl⟩)
          (List.forall₂_same.2 (fun x _ => Or.inl rfl))
    have hrel2 := sortEntries_rel (unreadEmpty_key n kids)
      (filterHidden_rel (unreadEmpty_key n kids) hrel)
    have hx := sizeL_scan_arg_le (l1 ++ FS.dir n false kids :: l2)
    have hy := sizeL_scan_arg_le (l1 ++ FS.dir n true [] :: l2)
    rw [scanEntries, scanEntries]
    rw [scanLoop_irrel (sizeL (l1 ++ FS.dir n false kids :: l2) + 1)
        (sizeL (l1 ++ FS.dir n false kids :: l2) + sizeL (l1 ++ FS.dir n true [] :: l2) + 1)
        _ rp pn 1 (by omega) (by omega),
      scanLoop_irrel (sizeL (l1 ++ FS.dir n true [] :: l2) + 1)
        (sizeL (l1 ++ FS.dir n false kids :: l2) + sizeL (l1 ++ FS.dir n true [] :: l2) + 1)
        _ rp pn 1 (by omega) (by omega)]
    exact scanLoop_unreadable_empty n kids _ _ _ rp pn 1 (by omega) (by omega) hrel2
  · have hrel : List.Forall₂ (UnreadSame n kids)
        (l1 ++ FS.dir n false kids :: l2) (l1 ++ FS.dir n true kids :: l2) := by
      apply List.rel_append
      · exact List.forall₂_same.2 (fun x _ => Or.inl rfl)
      · exact List.Forall₂.cons (Or.inr ⟨rfl, rfl⟩)
          (List.forall₂_same.2 (fun x _ => Or.inl rfl))
    have hrel2 := sortEntries_rel (unreadSame_key n kids)
      (filterHidden_rel (unreadSame_key n kids) hrel)
    have hx := sizeL_scan_arg_le (l1 ++ FS.dir n false kids :: l2)
    have hy := sizeL_scan_arg_le (l1 ++ FS.dir n true kids :: l2)
    rw [scanEntries, scanEntries]
    exact scanLoop_unreadable_agree n kids _ _ _ _ rp pn 1 (by omega) (by omega) hrel2

/-- A root listing whose directory `A` contains an unreadable nested
subdirectory `B` (with a file inside) next to an ordinary file. -/
def exUnreadable : List FS :=
  [FS.dir "A" true [FS.dir "B" false [FS.file "x.txt"], FS.file "c.txt"]]

/-- C6 counterexample: the claim asserts that a warning is recorded when
a nested subdirectory is unreadable, but the scan records no warning at
all on such an input — the `except (PermissionError, OSError)` handler
of lines 68-69 just returns the empty list, and no code path logs or
stores anything. -/
theorem c6_counterexample : scanWarnings exUnreadable = [] := rfl

/-! ### Depth and path lemmas (for C10) -/

lemma namesOkL_mem : ∀ l : List FS, namesOkL l = true → ∀ e ∈ l, namesOkFS e = true := by
  intro l h e he
  induction l with
  | nil => cases he
  | cons x xs ih =>
    rw [namesOkL, Bool.and_eq_true] at h
    rcases List.mem_cons.1 he with rfl | he2
    · exact h.1
    · exact ih h.2 he2

lemma namesOkFS_parts {e : FS} (h : namesOkFS e = true) :
    e.name ≠ "" ∧ '/' ∉ e.name.data := by
  cases e with
  | file n =>
    rw [namesOkFS, Bool.and_eq_true, decide_eq_true_eq, decide_eq_true_eq] at h
    exact ⟨h.1, h.2⟩
  | dir n r kids =>
    rw [namesOkFS, Bool.and_eq_true, Bool.and_eq_true, decide_eq_true_eq,
      decide_eq_true_eq] at h
    exact ⟨h.1.1, h.1.2⟩

lemma namesOkFS_kids {n : String} {r : Bool} {kids : List FS}
    (h : namesOkFS (FS.dir n r kids) = true) : namesOkL kids = true := by
  rw [namesOkFS, Bool.and_eq_true] at h
  exact h.2

lemma digitCh_mem : ∀ d, digitCh d ∈ (['0', '1', '2', '3', '4', '5', '6', '7', '8', '9'] : List Char) := by
  intro d
  unfold digitCh
  split <;> decide

lemma natToStrAux_subset : ∀ fuel n c, c ∈ natToStrAux fuel n →
    c ∈ (['0', '1', '2', '3', '4', '5', '6', '7', '8', '9'] : List Char) := by
  intro fuel
  induction fuel with
  | zero => intro n c hc; cases hc
  | succ f ih =>
    intro n c hc
    rw [natToStrAux] at hc
    split at hc
    · rw [List.mem_singleton] at hc
      subst hc
      exact digitCh_mem n
    · rcases List.mem_append.1 hc with h | h
      · exact ih (n / 10) c h
      · rw [List.mem_singleton] at h
        subst h
        exact digitCh_mem (n % 10)

lemma countCh_eq_zero {c : Char} {s : String} (h : c ∉ s.data) : countCh c s = 0 := by
  rw [countCh]
  exact List.count_eq_zero.2 h

lemma countCh_natToStr_dot (k : Nat) : countCh '.' (natToStr k) = 0 := by
  apply countCh_eq_zero
  intro hmem
  have := natToStrAux_subset (k + 1) k '.' hmem
  exact absurd this (by decide)

lemma countCh_natToStr_slash (k : Nat) : countCh '/' (natToStr k) = 0 := by
  apply countCh_eq_zero
  intro hmem
  have := natToStrAux_subset (k + 1) k '/' hmem
  exact absurd this (by decide)

lemma countCh_append (c : Char) (a b : String) :
    countCh c (a ++ b) = countCh c a + countCh c b := by
  simp [countCh, String.data_append, List.count_append]

lemma countCh_mkNumber_root (k : Nat) : countCh '.' (mkNumber "" k) = 0 := by
  rw [mkNumber_empty_pn]
  exact countCh_natToStr_dot k

lemma countCh_mkNumber {pn : String} (h : pn ≠ "") (k : Nat) :
    countCh '.' (mkNumber pn k) = countCh '.' pn + 1 := by
  rw [mkNumber_of_ne_empty h, countCh_append, countCh_append, countCh_natToStr_dot]
  have hdot : countCh '.' "." = 1 := by decide
  omega

lemma mkPath_empty_rp (nm : String) : mkPath "" nm = nm := by
  rw [mkPath, if_pos rfl]

lemma mkPath_of_ne_empty {rp : String} (h : rp ≠ "") (nm : String) :
    mkPath rp nm = rp ++ "/" ++ nm := by
  rw [mkPath, if_neg h]

lemma mkPath_ne_empty {rp nm : String} (h : nm ≠ "") : mkPath rp nm ≠ "" := by
  rw [mkPath]
  split
  · exact h
  · intro hcon
    have hd : (rp ++ "/" ++ nm).data = [] := by rw [hcon]
    rw [String.data_append, String.data_append] at hd
    simp at hd

lemma countCh_mkPath_root (nm : String) (h : '/' ∉ nm.data) :
    countCh '/' (mkPath "" nm) = 0 := by
  rw [mkPath_empty_rp]
  exact countCh_eq_zero h

lemma countCh_mkPath {rp : String} (h : rp ≠ "") (nm : String) (hn : '/' ∉ nm.data) :
    countCh '/' (mkPath rp nm) = countCh '/' rp + 1 := by
  rw [mkPath_of_ne_empty h, countCh_append, countCh_append, countCh_eq_zero hn]
  have hsl : countCh '/' "/" = 1 := by decide
  omega

lemma scanLoop_get_np : ∀ fuel l rp pn idx, sizeL l < fuel →
    ∀ j, ∀ hj : j < l.length, ∀ hj2 : j < (scanLoop fuel l rp pn idx).length,
    ((scanLoop fuel l rp pn idx).get ⟨j, hj2⟩).name = (l.get ⟨j, hj⟩).name
    ∧ ((scanLoop fuel l rp pn idx).get ⟨j, hj2⟩).path = mkPath rp (l.get ⟨j, hj⟩).name := by
  intro fuel
  induction fuel with
  | zero => intro l rp pn idx h; omega
  | succ f ih =>
    intro l rp pn idx h j hj hj2
    cases l with
    | nil => simp at hj
    | cons e rest =>
      rw [sizeL_cons] at h
      have he := sizeFS_pos e
      cases j with
      | zero =>
        constructor
        · simp only [scanLoop, List.get, Item.name]
        · simp only [scanLoop, List.get, Item.path]
      | succ jj =>
        have hjj : jj < rest.length := by simpa using hj
        have hjj2 : jj < (scanLoop f rest rp pn (idx + 1)).length := by
          have hlen : (scanLoop (f + 1) (e :: rest) rp pn idx).length
              = 1 + (scanLoop f rest rp pn (idx + 1)).length := by
            simp only [scanLoop, List.length_cons]
            omega
          omega
        have hstep1 : ((scanLoop (f + 1) (e :: rest) rp pn idx).get ⟨jj + 1, hj2⟩)
            = (scanLoop f rest rp pn (idx + 1)).get ⟨jj, hjj2⟩ := by
          simp only [scanLoop, List.get]
        have hstep2 : ((e :: rest).get ⟨jj + 1, hj⟩) = rest.get ⟨jj, hjj⟩ := by
          simp only [List.get]
        rw [hstep1, hstep2]
        exact ih rest rp pn (idx + 1) (by omega) jj hjj hjj2

lemma depth_head_counts {pn rp : String} {d : Nat} (idx : Nat) {nm : String}
    (hns : '/' ∉ nm.data)
    (hinv : (pn = "" ∧ rp = "" ∧ d = 1)
      ∨ (pn ≠ "" ∧ rp ≠ "" ∧ countCh '.' pn + 2 = d ∧ countCh '/' rp + 2 = d)) :
    countCh '.' (mkNumber pn idx) + 1 = d ∧ countCh '/' (mkPath rp nm) + 1 = d := by
  rcases hinv with ⟨rfl, rfl, rfl⟩ | ⟨hpn, hrp, hd1, hd2⟩
  · rw [countCh_mkNumber_root, countCh_mkPath_root nm hns]
    exact ⟨rfl, rfl⟩
  · rw [countCh_mkNumber hpn, countCh_mkPath hrp nm hns]
    omega

lemma depth_child_inv {pn rp : String} {d : Nat} (idx : Nat) {nm : String}
    (hnm : nm ≠ "") (hns : '/' ∉ nm.data)
    (hinv : (pn = "" ∧ rp = "" ∧ d = 1)
      ∨ (pn ≠ "" ∧ rp ≠ "" ∧ countCh '.' pn + 2 = d ∧ countCh '/' rp + 2 = d)) :
    (mkNumber pn idx = "" ∧ mkPath rp nm = "" ∧ d + 1 = 1)
      ∨ (mkNumber pn idx ≠ "" ∧ mkPath rp nm ≠ ""
          ∧ countCh '.' (mkNumber pn idx) + 2 = d + 1
          ∧ countCh '/' (mkPath rp nm) + 2 = d + 1) := by
  right
  refine ⟨mkNumber_ne_empty pn idx, mkPath_ne_empty hnm, ?_, ?_⟩
  · rcases hinv with ⟨rfl, rfl, rfl⟩ | ⟨hpn, hrp, hd1, hd2⟩
    · rw [countCh_mkNumber_root]
    · rw [countCh_mkNumber hpn]
      omega
  · rcases hinv with ⟨rfl, rfl, rfl⟩ | ⟨hpn, hrp, hd1, hd2⟩
    · rw [countCh_mkPath_root nm hns]
    · rw [countCh_mkPath hrp nm hns]
      omega

lemma mem_scan_arg_namesOk {kids : List FS} (hok : namesOkL kids = true) :
    ∀ e ∈ sortEntries (filterHidden kids), namesOkFS e = true := by
  intro e he
  have h2 := mem_sortEntries.1 he
  rw [filterHidden] at h2
  exact namesOkL_mem kids hok e (List.mem_filter.1 h2).1

lemma scanLoop_depth_inv : ∀ fuel l rp pn idx d, sizeL l < fuel →
    (∀ e ∈ l, namesOkFS e = true) →
    ((pn = "" ∧ rp = "" ∧ d = 1)
      ∨ (pn ≠ "" ∧ rp ≠ "" ∧ countCh '.' pn + 2 = d ∧ countCh '/' rp + 2 = d)) →
    ∀ p ∈ allItemsDepthL (scanLoop fuel l rp pn idx) d,
      countCh '.' p.1.number + 1 = p.2 ∧ countCh '/' p.1.path + 1 = p.2 := by
  intro fuel
  induction fuel with
  | zero => intro l rp pn idx d h; omega
  | succ f ih =>
    intro l rp pn idx d h hl hinv p hp
    cases l with
    | nil =>
      rw [scanLoop_nil] at hp
      cases hp
    | cons e rest =>
      rw [sizeL_cons] at h
      have he := sizeFS_pos e
      have hename := namesOkFS_parts (hl e (by simp))
      have htail : ∀ x ∈ rest, namesOkFS x = true := fun x hx => hl x (by simp [hx])
      cases e with
      | file n =>
        simp only [scanLoop, allItemsDepthL, allItemsDepth1, List.mem_append,
          List.mem_cons] at hp
        rcases hp with (rfl | hp) | hp
        · simpa [Item.number, Item.path] using depth_head_counts idx hename.2 hinv
        · cases hp
        · exact ih rest rp pn (idx + 1) d (by omega) htail hinv p hp
      | dir n r kids =>
        cases r with
        | false =>
          simp only [scanLoop, allItemsDepthL, allItemsDepth1, List.mem_append,
            List.mem_cons] at hp
          rcases hp with (rfl | hp) | hp
          · simpa [Item.number, Item.path] using depth_head_counts idx hename.2 hinv
          · cases hp
          · exact ih rest rp pn (idx + 1) d (by omega) htail hinv p hp
        | true =>
          have hsz : sizeFS (FS.dir n true kids) = 1 + sizeL kids := by simp [sizeFS]
          have hkb : sizeL (sortEntries (filterHidden kids)) ≤ sizeL kids :=
            sizeL_scan_arg_le kids
          simp only [scanLoop, allItemsDepthL, allItemsDepth1, List.mem_append,
            List.mem_cons] at hp
          rcases hp with (rfl | hp) | hp
          · simpa [Item.number, Item.path] using depth_head_counts idx hename.2 hinv
          · exact ih (sortEntries (filterHidden kids)) (mkPath rp (FS.dir n true kids).name)
              (mkNumber pn idx) 1 (d + 1) (by omega)
              (mem_scan_arg_namesOk (namesOkFS_kids (hl (FS.dir n true kids) (by simp))))
              (depth_child_inv idx hename.1 hename.2 hinv) p hp
          · exact ih rest rp pn (idx + 1) d (by omega) htail hinv p hp

lemma scanLoop_child_paths : ∀ fuel l rp pn idx, sizeL l < fuel →
    (∀ e ∈ l, namesOkFS e = true) →
    ∀ parent ∈ allItemsL (scanLoop fuel l rp pn idx), ∀ j, ∀ hj : j < parent.children.length,
      (parent.children.get ⟨j, hj⟩).path
        = parent.path ++ "/" ++ (parent.children.get ⟨j, hj⟩).name := by
  intro fuel
  induction fuel with
  | zero => intro l rp pn idx h; omega
  | succ f ih =>
    intro l rp pn idx h hl parent hp j hj
    cases l with
    | nil =>
      rw [scanLoop_nil] at hp
      cases hp
    | cons e rest =>
      rw [sizeL_cons] at h
      have he := sizeFS_pos e
      have hename := namesOkFS_parts (hl e (by simp))
      have htail : ∀ x ∈ rest, namesOkFS x = true := fun x hx => hl x (by simp [hx])
      cases e with
      | file n =>
        simp only [scanLoop, allItemsL_cons, allItems1, List.mem_append, List.mem_cons] at hp
        rcases hp with (rfl | hp) | hp
        · simp [Item.children] at hj
        · simp [allItemsL] at hp
        · exact ih rest rp pn (idx + 1) (by omega) htail parent hp j hj
      | dir n r kids =>
        cases r with
        | false =>
          simp only [scanLoop, allItemsL_cons, allItems1, List.mem_append,
            List.mem_cons] at hp
          rcases hp with (rfl | hp) | hp
          · simp [Item.children] at hj
          · simp [allItemsL] at hp
          · exact ih rest rp pn (idx + 1) (by omega) htail parent hp j hj
        | true =>
          have hsz : sizeFS (FS.dir n true kids) = 1 + sizeL kids := by simp [sizeFS]
          have hkb : sizeL (sortEntries (filterHidden kids)) ≤ sizeL kids :=
            sizeL_scan_arg_le kids
          simp only [scanLoop, allItemsL_cons, allItems1, List.mem_append,
            List.mem_cons] at hp
          rcases hp with (rfl | hp) | hp
          · simp only [Item.children] at hj ⊢
            have hjl : j < (sortEntries (filterHidden kids)).length := by
              have := scanLoop_length f (sortEntries (filterHidden kids))
                (mkPath rp (FS.dir n true kids).name) (mkNumber pn idx) 1 (by omega)
              omega
            have hnp := scanLoop_get_np f (sortEntries (filterHidden kids))
              (mkPath rp (FS.dir n true kids).name) (mkNumber pn idx) 1 (by omega) j hjl hj
            rw [hnp.1, hnp.2, Item.path]
            exact mkPath_of_ne_empty (mkPath_ne_empty hename.1) _
          · exact ih (sortEntries (filterHidden kids)) (mkPath rp (FS.dir n true kids).name)
              (mkNumber pn idx) 1 (by omega)
              (mem_scan_arg_namesOk (namesOkFS_kids (hl (FS.dir n true kids) (by simp)))) parent hp j hj
          · exact ih rest rp pn (idx + 1) (by omega) htail parent hp j hj

/-- C10: for legal filesystem names (non-empty, no `/` — always true of
real `os.scandir` output), every node at depth `d` (1 for root-level
children) has exactly `d` dot-separated components in its number and `d`
slash-separated components in its relative path; a root-level node's
path is its name, and a deeper node's path is its parent's path followed
by `/` and its name. -/
theorem c10_depth_consistency (es : List FS) (h : namesOkL es = true) :
    (∀ p ∈ allItemsDepthL (scanEntries es "" "") 1,
        countCh '.' p.1.number + 1 = p.2 ∧ countCh '/' p.1.path + 1 = p.2)
    ∧ (∀ j, ∀ hj : j < (scanEntries es "" "").length,
        ((scanEntries es "" "").get ⟨j, hj⟩).path = ((scanEntries es "" "").get ⟨j, hj⟩).name)
    ∧ ∀ parent ∈ allItemsL (scanEntries es "" ""), ∀ j, ∀ hj : j < parent.children.length,
        (parent.children.get ⟨j, hj⟩).path
          = parent.path ++ "/" ++ (parent.children.get ⟨j, hj⟩).name := by
  have hfuel : sizeL (sortEntries (filterHidden es)) < sizeL es + 1 := by
    have := sizeL_scan_arg_le es
    omega
  have hok := mem_scan_arg_namesOk h
  refine ⟨?_, ?_, ?_⟩
  · intro p hp
    unfold scanEntries at hp
    exact scanLoop_depth_inv (sizeL es + 1) _ "" "" 1 1 hfuel hok
      (Or.inl ⟨rfl, rfl, rfl⟩) p hp
  · intro j hj
    unfold scanEntries at hj ⊢
    have hjl : j < (sortEntries (filterHidden es)).length := by
      have := scanLoop_length (sizeL es + 1) (sortEntries (filterHidden es)) "" "" 1 hfuel
      omega
    have hnp := scanLoop_get_np (sizeL es + 1) (sortEntries (filterHidden es)) "" "" 1 hfuel
      j hjl hj
    rw [hnp.1, hnp.2, mkPath_empty_rp]
  · intro parent hp j hj
    unfold scanEntries at hp
    exact scanLoop_child_paths (sizeL es + 1) _ "" "" 1 hfuel hok parent hp j hj

/-- Witness for C10: its hypothesis holds for the concrete Scenario A
listing, and the theorem applies there. -/
theorem c10_depth_consistency_witness :
    namesOkL exScenarioA = true
    ∧ ((∀ p ∈ allItemsDepthL (scanEntries exScenarioA "" "") 1,
          countCh '.' p.1.number + 1 = p.2 ∧ countCh '/' p.1.path + 1 = p.2)
      ∧ (∀ j, ∀ hj : j < (scanEntries exScenarioA "" "").length,
          ((scanEntries exScenarioA "" "").get ⟨j, hj⟩).path
            = ((scanEntries exScenarioA "" "").get ⟨j, hj⟩).name)
      ∧ ∀ parent ∈ allItemsL (scanEntries exScenarioA "" ""), ∀ j,
          ∀ hj : j < parent.children.length,
          (parent.children.get ⟨j, hj⟩).path
            = parent.path ++ "/" ++ (parent.children.get ⟨j, hj⟩).name) :=
  ⟨by decide, c10_depth_consistency exScenarioA (by decide)⟩
